import Mathlib

/-!
Verification of the session subsystem of `eca/sessions.py`.

The development shallowly embeds the source file:
* `name_parts` / `names` (lines 13-48): the staged Cartesian-product name
  generator, embedded as `stageParts` / `stageNames` / `nameAt`;
* `SessionCookie.handle` (lines 61-82): `handleCookie`;
* `Session` / `SessionManager` (lines 85-127): `Session`, `MState`,
  `generate_name`, `activateM`;
* `GenerateEvent(...).handle_POST` (lines 136-167): `handle_POST`.

External collaborators (`Context`, `context_activate`, `new_event`, the HTTP
transport) are code of the repository that is not part of the given source
file; they are modelled from the specification's contracts and are marked as
such in their doc comments.
-/

namespace Eca

/-! ## Vocabularies (source lines 19-23) -/

/-- Source lines 19-22: the `letters` vocabulary (24 Greek letter names). -/
def letters : List String :=
  ["alpha", "beta", "gamma", "delta", "epsilon", "zeta", "eta",
   "theta", "iota", "kappa", "lambda", "mu", "nu", "xi", "omicron",
   "pi", "rho", "sigma", "tau", "upsilon", "phi", "chi", "psi",
   "omega"]

/-- Source line 23: the `colours` vocabulary (6 colour names). -/
def colours : List String :=
  ["red", "orange", "yellow", "green", "blue", "violet"]

/-- A vocabulary word as used by the generator: nonempty and free of the
separator character. -/
def goodWord (w : String) : Prop := w.data ≠ [] ∧ '-' ∉ w.data

instance : DecidablePred goodWord := fun w => by
  unfold goodWord; infer_instance

theorem letters_good : ∀ w ∈ letters, goodWord w := by decide

theorem colours_good : ∀ w ∈ colours, goodWord w := by decide

theorem letters_nodup : letters.Nodup := by decide

theorem colours_nodup : colours.Nodup := by decide

/-! ## Joining name parts (source line 48: `'-'.join`) -/

/-- Embedding of Python `'-'.join` applied to a tuple of parts. -/
def joinDash : List String → String
  | [] => ""
  | [w] => w
  | w :: ws => w ++ "-" ++ joinDash ws

/-- Splitting a character list at each `'-'`; inverse view of `joinDash`,
used to talk about the components of a generated name. -/
def splitDash : List Char → List (List Char)
  | [] => [[]]
  | c :: rest =>
    if c = '-' then [] :: splitDash rest
    else
      match splitDash rest with
      | [] => [[c]]
      | g :: gs => (c :: g) :: gs

/-- The `'-'`-separated components of a string. -/
def components (s : String) : List String :=
  (splitDash s.data).map String.mk

theorem mk_data (s : String) : String.mk s.data = s := by
  cases s; rfl

theorem splitDash_ne_nil (cs : List Char) : splitDash cs ≠ [] := by
  cases cs with
  | nil => simp [splitDash]
  | cons c rest =>
    simp only [splitDash]
    split
    · simp
    · split <;> simp

theorem splitDash_of_no_dash (cs : List Char) (h : '-' ∉ cs) :
    splitDash cs = [cs] := by
  induction cs with
  | nil => rfl
  | cons c rest ih =>
    have hc : c ≠ '-' := fun hc => h (hc ▸ List.mem_cons_self c rest)
    have hrest : '-' ∉ rest := fun hr => h (List.mem_cons_of_mem c hr)
    simp only [splitDash, if_neg hc, ih hrest]

theorem splitDash_append_dash (a d : List Char) (h : '-' ∉ a) :
    splitDash (a ++ '-' :: d) = a :: splitDash d := by
  induction a with
  | nil => simp [splitDash]
  | cons c a' ih =>
    have hc : c ≠ '-' := fun hc => h (hc ▸ List.mem_cons_self c a')
    have ha' : '-' ∉ a' := fun hr => h (List.mem_cons_of_mem c hr)
    simp only [List.cons_append, splitDash, if_neg hc, List.append_eq, ih ha']

theorem joinDash_cons_cons (w x : String) (ws : List String) :
    (joinDash (w :: x :: ws)).data =
      w.data ++ '-' :: (joinDash (x :: ws)).data := by
  show ((w ++ "-" ++ joinDash (x :: ws))).data = _
  simp [String.data_append]

/-- On nonempty lists of good words, `components` recovers the parts from
their join: the decomposition of a generated name is unique. -/
theorem components_joinDash :
    ∀ ws : List String, ws ≠ [] → (∀ w ∈ ws, goodWord w) →
      components (joinDash ws) = ws := by
  intro ws
  induction ws with
  | nil => intro h; exact absurd rfl h
  | cons w tail ih =>
    intro _ hgood
    cases tail with
    | nil =>
      have hw : goodWord w := hgood w (by simp)
      show (splitDash (joinDash [w]).data).map String.mk = [w]
      have : joinDash [w] = w := rfl
      rw [this, splitDash_of_no_dash w.data hw.2]
      simp [mk_data]
    | cons x ws' =>
      have hw : goodWord w := hgood w (by simp)
      have htail : ∀ u ∈ x :: ws', goodWord u := by
        intro u hu; exact hgood u (List.mem_cons_of_mem w hu)
      show (splitDash (joinDash (w :: x :: ws')).data).map String.mk = _
      rw [joinDash_cons_cons, splitDash_append_dash _ _ hw.2]
      have ihx := ih (by simp) htail
      show String.mk w.data ::
        (splitDash (joinDash (x :: ws')).data).map String.mk = _
      rw [mk_data]
      exact congrArg (w :: ·) ihx

/-- `'-'.join` is injective on nonempty lists of good words. -/
theorem joinDash_inj {ws₁ ws₂ : List String}
    (h₁ : ws₁ ≠ []) (h₂ : ws₂ ≠ [])
    (g₁ : ∀ w ∈ ws₁, goodWord w) (g₂ : ∀ w ∈ ws₂, goodWord w)
    (h : joinDash ws₁ = joinDash ws₂) : ws₁ = ws₂ := by
  have := congrArg components h
  rwa [components_joinDash ws₁ h₁ g₁, components_joinDash ws₂ h₂ g₂] at this

/-! ## Cartesian product (source line 48: `itertools.product(*p)`) -/

/-- Embedding of `itertools.product(*p)`: all ways of picking one element
from each factor list, leftmost factor varying slowest (the rightmost factor
cycles fastest, as in `itertools.product`). -/
def listProduct : List (List String) → List (List String)
  | [] => [[]]
  | l :: ls => l.flatMap (fun x => (listProduct ls).map (x :: ·))

theorem mem_listProduct {ws : List String} :
    ∀ {ls : List (List String)},
      ws ∈ listProduct ls ↔ List.Forall₂ (· ∈ ·) ws ls := by
  induction ws with
  | nil =>
    intro ls
    cases ls with
    | nil => simp [listProduct]
    | cons l ls =>
      simp only [listProduct, List.mem_flatMap, List.mem_map]
      constructor
      · rintro ⟨a, _, t, _, h⟩; exact absurd h (by simp)
      · intro h; exact absurd h (by intro h; cases h)
  | cons x t ih =>
    intro ls
    cases ls with
    | nil =>
      simp only [listProduct, List.mem_singleton]
      constructor
      · intro h; cases h
      · intro h; cases h
    | cons l ls =>
      simp only [listProduct, List.mem_flatMap, List.mem_map]
      constructor
      · rintro ⟨a, ha, t', ht', heq⟩
        cases heq
        exact List.Forall₂.cons ha (ih.mp ht')
      · intro h
        cases h with
        | cons hx ht => exact ⟨x, hx, t, ih.mpr ht, rfl⟩

theorem length_of_mem_listProduct {ws : List String}
    {ls : List (List String)} (h : ws ∈ listProduct ls) :
    ws.length = ls.length :=
  (mem_listProduct.mp h).length_eq

theorem length_listProduct :
    ∀ ls : List (List String),
      (listProduct ls).length = (ls.map List.length).prod := by
  intro ls
  induction ls with
  | nil => rfl
  | cons l ls ih =>
    simp only [listProduct, List.length_flatMap, List.map_cons,
      List.prod_cons, Function.comp_def, List.length_map, ih]
    rw [List.map_const', List.sum_replicate, smul_eq_mul]

theorem nodup_listProduct :
    ∀ {ls : List (List String)}, (∀ l ∈ ls, l.Nodup) →
      (listProduct ls).Nodup := by
  intro ls
  induction ls with
  | nil => intro _; simp [listProduct]
  | cons l ls ih =>
    intro h
    have hl : l.Nodup := h l (by simp)
    have hrest : (listProduct ls).Nodup :=
      ih (fun l' hl' => h l' (List.mem_cons_of_mem l hl'))
    simp only [listProduct]
    rw [List.nodup_flatMap]
    refine ⟨fun x _ => hrest.map (fun a b hab => by injection hab), ?_⟩
    refine hl.imp ?_
    intro a b hab ws hwa hwb
    simp only [List.mem_map] at hwa hwb
    obtain ⟨t₁, _, h₁⟩ := hwa
    obtain ⟨t₂, _, h₂⟩ := hwb
    rw [← h₁] at h₂
    injection h₂ with h₂ _
    exact hab h₂.symm

/-! ## Stages of the name generator (source lines 13-48) -/

/-- Outcomes of the `random.shuffle` calls in `name_parts`: `Ls k` and `Cs k`
are the orders of the (single, repeatedly re-shuffled in place) `letters` and
`colours` list objects at the time stage `k`'s Cartesian product snapshots
its factors, i.e. after the `k`-th re-shuffle.  A shuffle is a permutation of
the vocabulary. -/
structure Shuffles where
  Ls : ℕ → List String
  Cs : ℕ → List String
  permL : ∀ k, (Ls k).Perm letters
  permC : ∀ k, (Cs k).Perm colours

/-- Degenerate shuffle outcome (every shuffle is the identity), used to
instantiate theorems on concrete runs. -/
def idShuffles : Shuffles :=
  ⟨fun _ => letters, fun _ => colours,
   fun _ => List.Perm.refl _, fun _ => List.Perm.refl _⟩

/-- Source lines 29-40: the factor list yielded by `name_parts` at stage `k`.
Stage 0 yields `[letters, colours]`; each later resumption appends the same
`letters` list object once more (`parts.append(letters)`), so stage `k` has
factors `[letters, colours] ++ k × letters`, all letter factors sharing the
stage-`k` shuffle because they alias one list object. -/
def stageParts (S : Shuffles) (k : ℕ) : List (List String) :=
  S.Ls k :: S.Cs k :: List.replicate k (S.Ls k)

/-- Source line 48 restricted to one stage: the names produced while stage
`k`'s Cartesian product is being drained, in order. -/
def stageNames (S : Shuffles) (k : ℕ) : List String :=
  (listProduct (stageParts S k)).map joinDash

theorem stageParts_mem_vocab {S : Shuffles} {k : ℕ} {l : List String}
    (hl : l ∈ stageParts S k) : ∀ w ∈ l, w ∈ letters ∨ w ∈ colours := by
  intro w hw
  simp only [stageParts, List.mem_cons, List.mem_replicate] at hl
  rcases hl with rfl | rfl | ⟨_, rfl⟩
  · exact Or.inl ((S.permL k).mem_iff.mp hw)
  · exact Or.inr ((S.permC k).mem_iff.mp hw)
  · exact Or.inl ((S.permL k).mem_iff.mp hw)

theorem vocab_good {w : String} (h : w ∈ letters ∨ w ∈ colours) :
    goodWord w := by
  rcases h with h | h
  · exact letters_good w h
  · exact colours_good w h

theorem forall₂_mem_left {R : String → List String → Prop}
    {ws : List String} {ls : List (List String)}
    (hf : List.Forall₂ R ws ls) {w : String} (hw : w ∈ ws) :
    ∃ l ∈ ls, R w l := by
  induction hf with
  | nil => cases hw
  | cons hR _ ih =>
    rcases List.mem_cons.mp hw with rfl | hw'
    · exact ⟨_, by simp, hR⟩
    · obtain ⟨l, hl, hRl⟩ := ih hw'
      exact ⟨l, List.mem_cons_of_mem _ hl, hRl⟩

theorem stage_words_good {S : Shuffles} {k : ℕ} {ws : List String}
    (h : ws ∈ listProduct (stageParts S k)) : ∀ w ∈ ws, goodWord w := by
  intro w hw
  have hf := mem_listProduct.mp h
  obtain ⟨l, hl, hwl⟩ := forall₂_mem_left hf hw
  exact vocab_good (stageParts_mem_vocab hl w hwl)

theorem stage_tuple_length {S : Shuffles} {k : ℕ} {ws : List String}
    (h : ws ∈ listProduct (stageParts S k)) : ws.length = k + 2 := by
  rw [length_of_mem_listProduct h]
  simp [stageParts]

theorem stage_tuple_ne_nil {S : Shuffles} {k : ℕ} {ws : List String}
    (h : ws ∈ listProduct (stageParts S k)) : ws ≠ [] := by
  intro hnil
  have := stage_tuple_length h
  rw [hnil] at this
  simp at this

theorem mem_stageNames {S : Shuffles} {k : ℕ} {nm : String} :
    nm ∈ stageNames S k ↔
      ∃ ws ∈ listProduct (stageParts S k), joinDash ws = nm := by
  simp [stageNames, List.mem_map]

/-- Two equal names drawn from (possibly different) stages come from the same
tuple, hence from the same stage: the stages are pairwise disjoint. -/
theorem stage_eq_of_mem {S : Shuffles} {k j : ℕ} {nm : String}
    (hk : nm ∈ stageNames S k) (hj : nm ∈ stageNames S j) : k = j := by
  obtain ⟨ws₁, hws₁, h₁⟩ := mem_stageNames.mp hk
  obtain ⟨ws₂, hws₂, h₂⟩ := mem_stageNames.mp hj
  have : ws₁ = ws₂ :=
    joinDash_inj (stage_tuple_ne_nil hws₁) (stage_tuple_ne_nil hws₂)
      (stage_words_good hws₁) (stage_words_good hws₂) (h₁.trans h₂.symm)
  have hlen : k + 2 = j + 2 := by
    rw [← stage_tuple_length hws₁, this, stage_tuple_length hws₂]
  omega

theorem stageNames_nodup (S : Shuffles) (k : ℕ) : (stageNames S k).Nodup := by
  have hfac : ∀ l ∈ stageParts S k, l.Nodup := by
    intro l hl
    simp only [stageParts, List.mem_cons, List.mem_replicate] at hl
    rcases hl with rfl | rfl | ⟨_, rfl⟩
    · exact (S.permL k).nodup_iff.mpr letters_nodup
    · exact (S.permC k).nodup_iff.mpr colours_nodup
    · exact (S.permL k).nodup_iff.mpr letters_nodup
  refine List.Nodup.map_on ?_ (nodup_listProduct hfac)
  intro ws₁ h₁ ws₂ h₂ heq
  exact joinDash_inj (stage_tuple_ne_nil h₁) (stage_tuple_ne_nil h₂)
    (stage_words_good h₁) (stage_words_good h₂) heq

theorem stageNames_length (S : Shuffles) (k : ℕ) :
    (stageNames S k).length = 144 * 24 ^ k := by
  have hL : (S.Ls k).length = 24 := (S.permL k).length_eq.trans (by decide)
  have hC : (S.Cs k).length = 6 := (S.permC k).length_eq.trans (by decide)
  simp only [stageNames, List.length_map, length_listProduct, stageParts,
    List.map_cons, List.prod_cons, hL, hC, List.map_replicate,
    List.prod_replicate]
  ring

theorem stageNames_length_pos (S : Shuffles) (k : ℕ) :
    0 < (stageNames S k).length := by
  rw [stageNames_length]; positivity

theorem stageNames_ne_nil (S : Shuffles) (k : ℕ) : stageNames S k ≠ [] :=
  List.ne_nil_of_length_pos (stageNames_length_pos S k)

/-! ## The flat `names` sequence (source line 48)

`names` is the lazy concatenation of the stages: its `n`-th value (0-based,
counting calls to `next(names)`) is `nameAt S n`. -/

/-- Value at offset `n` of the concatenation of stages `k, k+1, ...`. -/
def nameGo (S : Shuffles) (k n : ℕ) : String :=
  if h : n < (stageNames S k).length then (stageNames S k).get ⟨n, h⟩
  else nameGo S (k + 1) (n - (stageNames S k).length)
termination_by n
decreasing_by
  exact Nat.sub_lt
    (Nat.lt_of_lt_of_le (stageNames_length_pos S k) (Nat.le_of_not_lt h))
    (stageNames_length_pos S k)

/-- The `n`-th value produced by the `names` iterator of source line 48. -/
def nameAt (S : Shuffles) (n : ℕ) : String := nameGo S 0 n

theorem nameGo_lt {S : Shuffles} {k n : ℕ}
    (h : n < (stageNames S k).length) :
    nameGo S k n = (stageNames S k).get ⟨n, h⟩ := by
  rw [nameGo]; simp [h]

theorem nameGo_ge {S : Shuffles} {k n : ℕ}
    (h : (stageNames S k).length ≤ n) :
    nameGo S k n = nameGo S (k + 1) (n - (stageNames S k).length) := by
  rw [nameGo]; simp [Nat.not_lt_of_ge h]

/-- Every value of the tail-concatenation from stage `k` lies in some stage
`j ≥ k`. -/
theorem nameGo_mem (S : Shuffles) :
    ∀ n k, ∃ j, k ≤ j ∧ nameGo S k n ∈ stageNames S j := by
  intro n
  induction n using Nat.strong_induction_on with
  | _ n ih =>
    intro k
    by_cases h : n < (stageNames S k).length
    · exact ⟨k, le_refl k, by rw [nameGo_lt h]; exact List.get_mem _ _ _⟩
    · have hge := Nat.le_of_not_lt h
      have hlt : n - (stageNames S k).length < n :=
        Nat.sub_lt (Nat.lt_of_lt_of_le (stageNames_length_pos S k) hge)
          (stageNames_length_pos S k)
      obtain ⟨j, hkj, hmem⟩ := ih _ hlt (k + 1)
      exact ⟨j, Nat.le_of_succ_le hkj, by rw [nameGo_ge hge]; exact hmem⟩

theorem nameGo_inj (S : Shuffles) :
    ∀ n m k, nameGo S k n = nameGo S k m → n = m := by
  intro n
  induction n using Nat.strong_induction_on with
  | _ n ih =>
    intro m k heq
    by_cases hn : n < (stageNames S k).length
    · by_cases hm : m < (stageNames S k).length
      · rw [nameGo_lt hn, nameGo_lt hm] at heq
        exact congrArg Fin.val ((stageNames_nodup S k).get_inj_iff.mp heq)
      · exfalso
        have h₁ : nameGo S k n ∈ stageNames S k := by
          rw [nameGo_lt hn]; exact List.get_mem _ _ _
        obtain ⟨j, hj, h₂⟩ := nameGo_mem S (m - (stageNames S k).length) (k + 1)
        rw [nameGo_ge (Nat.le_of_not_lt hm)] at heq
        rw [heq] at h₁
        have := stage_eq_of_mem h₁ h₂
        omega
    · by_cases hm : m < (stageNames S k).length
      · exfalso
        have h₁ : nameGo S k m ∈ stageNames S k := by
          rw [nameGo_lt hm]; exact List.get_mem _ _ _
        obtain ⟨j, hj, h₂⟩ := nameGo_mem S (n - (stageNames S k).length) (k + 1)
        rw [nameGo_ge (Nat.le_of_not_lt hn)] at heq
        rw [← heq] at h₁
        have := stage_eq_of_mem h₁ h₂
        omega
      · have hgn := Nat.le_of_not_lt hn
        have hgm := Nat.le_of_not_lt hm
        rw [nameGo_ge hgn, nameGo_ge hgm] at heq
        have hlt : n - (stageNames S k).length < n :=
          Nat.sub_lt (Nat.lt_of_lt_of_le (stageNames_length_pos S k) hgn)
            (stageNames_length_pos S k)
        have := ih _ hlt _ _ heq
        omega

/-- The values of the `names` iterator are pairwise distinct: the sequence
position determines the name. -/
theorem nameAt_injective (S : Shuffles) : Function.Injective (nameAt S) :=
  fun n m h => nameGo_inj S n m 0 h

/-! ## Association-list model of a Python `dict` -/

/-- Lookup in a Python `dict` modelled as an insertion-ordered association
list (`k in d` / `d[k]`). -/
def alookup {α : Type} (k : String) : List (String × α) → Option α
  | [] => none
  | (k', v) :: rest => if k' = k then some v else alookup k rest

/-- Assignment `d[k] = v` on a Python `dict`: update in place when the key
exists, append otherwise. -/
def aset {α : Type} (k : String) (v : α) : List (String × α) → List (String × α)
  | [] => [(k, v)]
  | (k', v') :: rest =>
    if k' = k then (k, v) :: rest else (k', v') :: aset k v rest

theorem alookup_aset_self {α : Type} (k : String) (v : α) :
    ∀ l : List (String × α), alookup k (aset k v l) = some v := by
  intro l
  induction l with
  | nil => simp [aset, alookup]
  | cons p rest ih =>
    obtain ⟨k', v'⟩ := p
    by_cases h : k' = k
    · simp [aset, alookup, h]
    · simp [aset, alookup, h, ih]

theorem alookup_aset_ne {α : Type} {k k' : String} (hne : k' ≠ k) (v : α) :
    ∀ l : List (String × α), alookup k' (aset k v l) = alookup k' l := by
  intro l
  have hkk : ¬(k = k') := fun h => hne h.symm
  induction l with
  | nil =>
    simp only [aset, alookup]
    rw [if_neg hkk]
  | cons p rest ih =>
    obtain ⟨k₀, v₀⟩ := p
    by_cases h : k₀ = k
    · subst h
      simp only [aset, if_pos rfl, alookup]
      rw [if_neg hkk, if_neg hkk]
    · simp only [aset, if_neg h, alookup]
      by_cases h' : k₀ = k'
      · rw [if_pos h', if_pos h']
      · rw [if_neg h', if_neg h', ih]

theorem length_aset_of_none {α : Type} {k : String} {l : List (String × α)}
    (h : alookup k l = none) (v : α) :
    (aset k v l).length = l.length + 1 := by
  induction l with
  | nil => rfl
  | cons p rest ih =>
    obtain ⟨k₀, v₀⟩ := p
    simp only [alookup] at h
    by_cases hk : k₀ = k
    · simp [hk] at h
    · simp only [aset, if_neg hk, List.length_cons]
      rw [ih (by simpa [hk] using h)]

theorem length_aset_of_some {α : Type} {k : String} {l : List (String × α)}
    (h : (alookup k l).isSome) (v : α) :
    (aset k v l).length = l.length := by
  induction l with
  | nil => simp [alookup] at h
  | cons p rest ih =>
    obtain ⟨k₀, v₀⟩ := p
    by_cases hk : k₀ = k
    · simp [aset, hk]
    · simp only [alookup, if_neg hk] at h
      simp only [aset, if_neg hk, List.length_cons]
      rw [ih h]

theorem alookup_ne_none_mem {α : Type} {k : String} {l : List (String × α)}
    (h : alookup k l ≠ none) : k ∈ l.map Prod.fst := by
  induction l with
  | nil => exact absurd rfl h
  | cons p rest ih =>
    obtain ⟨k₀, v₀⟩ := p
    by_cases hk : k₀ = k
    · simp [hk]
    · simp only [alookup, if_neg hk] at h
      simpa using Or.inr (ih h)

/-! ## Sessions and the session manager (source lines 85-127) -/

/-- Modelled from the spec: a `Context` handle, constructed as
`Context(name)` (the `Context` class is imported on source line 9 from the
package root, which is not part of the given source file).  Spec §6: a
ContextHandle supports `construct(identifier)`; handles are distinct objects
per construction, modelled by a creation counter `cid`. -/
structure Ctx where
  key : String
  cid : ℕ
deriving DecidableEq

/-- Source lines 85-91: the `Session` bookkeeping record. -/
structure Session where
  context : Ctx
  seen : Int
deriving DecidableEq

/-- The mutable state threaded through the manager's operations: the
`SessionManager.sessions` dict and cursor of the module-global `names`
iterator, plus bookkeeping for the modelled collaborators (context creation
counter, clock tick counter, contexts started, and the process-wide current
context of spec §3). -/
structure MState where
  sessions : List (String × Session)
  cursor : ℕ
  nextCid : ℕ
  tick : ℕ
  started : List Ctx
  current : Option Ctx
deriving DecidableEq

/-- The initial state of a fresh `SessionManager` (source lines 104-106:
`self.sessions = {}`) with the `names` iterator at its start. -/
def initState : MState :=
  { sessions := [], cursor := 0, nextCid := 0, tick := 0,
    started := [], current := none }

/-- Reading `time.time()`: the machine consumes one tick of the abstract
clock `clk` per call. -/
def timeNow (clk : ℕ → Int) (st : MState) : Int × MState :=
  (clk st.tick, { st with tick := st.tick + 1 })

/-- Modelled from the spec: `context_activate(ctx)` (imported on source line
9 from the package root, not part of the given source file) sets the
process-wide current-context pointer (spec §3 "Global current context
pointer" and §4.3). -/
def contextActivate (c : Ctx) (st : MState) : MState :=
  { st with current := some c }

/-- Source lines 119-122, `SessionManager._new_session`:
`Session(Context(name), time.time())` followed by `result.context.start()`.
Argument order follows Python evaluation: the context is constructed, then
the clock is read; starting the context is recorded in `started`. -/
def new_session (clk : ℕ → Int) (name : String) (st : MState) :
    Session × MState :=
  let c : Ctx := ⟨name, st.nextCid⟩
  let st₁ := { st with nextCid := st.nextCid + 1 }
  let (t, st₂) := timeNow clk st₁
  let st₃ := { st₂ with started := st₂.started ++ [c] }
  (⟨c, t⟩, st₃)

/-- Source lines 93-96, `Session.activate` applied to the entry at `name`
(`self.sessions[name].activate()`): set `seen` to the current time, then
`context_activate(self.context)`.  The `none` branch is unreachable from
`activateM` (in Python it would be a `KeyError` on `self.sessions[name]`). -/
def sessionActivateAt (clk : ℕ → Int) (name : String) (st : MState) : MState :=
  match alookup name st.sessions with
  | some s =>
    let (t, st₁) := timeNow clk st
    let s' : Session := { s with seen := t }
    contextActivate s'.context { st₁ with sessions := aset name s' st₁.sessions }
  | none => st

/-- Source lines 124-127, `SessionManager.activate`. -/
def activateM (clk : ℕ → Int) (name : String) (st : MState) : MState :=
  let st₁ :=
    if (alookup name st.sessions).isSome then st
    else
      let (s, st') := new_session clk name st
      { st' with sessions := aset name s st'.sessions }
  sessionActivateAt clk name st₁

/-! ## `generate_name` (source lines 113-117) -/

theorem exists_fresh_bounded (S : Shuffles) (sess : List (String × Session))
    (c : ℕ) :
    ∃ m, c ≤ m ∧ m ≤ c + (sess.map Prod.fst).toFinset.card ∧
      alookup (nameAt S m) sess = none := by
  by_contra hcon
  push_neg at hcon
  set d := (sess.map Prod.fst).toFinset.card with hd
  have hmaps : ∀ i ∈ Finset.range (d + 1),
      nameAt S (c + i) ∈ (sess.map Prod.fst).toFinset := by
    intro i hi
    rw [List.mem_toFinset]
    refine alookup_ne_none_mem (hcon (c + i) (Nat.le_add_right _ _) ?_)
    have := Finset.mem_range.mp hi
    omega
  have hinj : Set.InjOn (fun i => nameAt S (c + i))
      ↑(Finset.range (d + 1)) := by
    intro a _ b _ hab
    have := nameAt_injective S hab
    omega
  have hle := Finset.card_le_card_of_injOn _ hmaps hinj
  rw [Finset.card_range] at hle
  omega

theorem exists_fresh (S : Shuffles) (sess : List (String × Session))
    (c : ℕ) : ∃ m, c ≤ m ∧ alookup (nameAt S m) sess = none := by
  obtain ⟨m, h₁, _, h₃⟩ := exists_fresh_bounded S sess c
  exact ⟨m, h₁, h₃⟩

/-- The position at which the `while` loop of `generate_name` stops: drawing
`names` from position `c` onward, the first draw whose value is not a key of
`sessions`.  (The loop draws `next(names)` once, then redraws while the draw
is in `self.sessions`; it therefore stops at the least such position.) -/
def genFresh (S : Shuffles) (sess : List (String × Session)) (c : ℕ) : ℕ :=
  Nat.find (exists_fresh S sess c)

/-- Source lines 113-117, `SessionManager.generate_name`: redraw from the
module-global `names` iterator until the draw is not a key of
`self.sessions`; return it without inserting it.  Only the iterator cursor
advances. -/
def generate_name (S : Shuffles) (st : MState) : String × MState :=
  let m := genFresh S st.sessions st.cursor
  (nameAt S m, { st with cursor := m + 1 })

theorem genFresh_le (S : Shuffles) (st : MState) :
    genFresh S st.sessions st.cursor ≥ st.cursor ∧
      genFresh S st.sessions st.cursor ≤
        st.cursor + (st.sessions.map Prod.fst).toFinset.card := by
  constructor
  · exact (Nat.find_spec (exists_fresh S st.sessions st.cursor)).1
  · obtain ⟨m, h₁, h₂, h₃⟩ :=
      exists_fresh_bounded S st.sessions st.cursor
    exact le_trans (Nat.find_min' _ ⟨h₁, h₃⟩) h₂

theorem genFresh_fresh (S : Shuffles) (st : MState) :
    alookup (nameAt S (genFresh S st.sessions st.cursor)) st.sessions
      = none :=
  (Nat.find_spec (exists_fresh S st.sessions st.cursor)).2

theorem generate_name_spec (S : Shuffles) (st : MState) :
    ∃ m, st.cursor ≤ m ∧
      generate_name S st = (nameAt S m, { st with cursor := m + 1 }) ∧
      alookup (nameAt S m) st.sessions = none := by
  exact ⟨genFresh S st.sessions st.cursor, (genFresh_le S st).1, rfl,
    genFresh_fresh S st⟩

/-! ## The cookie filter (source lines 51-82) -/

/-- Result of one run of `SessionCookie.handle`: the session identifier used,
the `Set-Cookie` header emitted (value and path), if any, and the manager
state afterwards. -/
structure CookieResult where
  value : String
  setCookie : Option (String × String)
  state : MState
deriving DecidableEq

/-- Source lines 61-82, `SessionCookie.handle`.  Modelled from the spec for
the transport parts (`Filter`, `self.request`, imported on source line 8
from `eca.http`, which is not part of the given source file): the request's
cookies are a name → value mapping and emitting `Set-Cookie` is recorded in
the result (spec §4.4).  A parsed cookie morsel is present exactly when the
name is bound, so `if not morsel` is the `none` case. -/
def handleCookie (S : Shuffles) (clk : ℕ → Int) (cookieName : String)
    (reqCookies : List (String × String)) (st : MState) : CookieResult :=
  match alookup cookieName reqCookies with
  | none =>
    let (v, st₁) := generate_name S st
    ⟨v, some (v, "/"), activateM clk v st₁⟩
  | some v => ⟨v, none, activateM clk v st⟩

/-! ## Operation traces of one manager (for lifetime-uniqueness claims) -/

/-- One call on a `SessionManager` instance: a `generate_name` call or an
`activate(name)` call. -/
inductive Op where
  | gen : Op
  | act : String → Op

/-- Run a sequence of calls, collecting every string `generate_name`
returned. -/
def runOps (S : Shuffles) (clk : ℕ → Int) :
    List Op → MState → List String × MState
  | [], st => ([], st)
  | Op.gen :: ops, st =>
    let (v, st₁) := generate_name S st
    let (issued, st₂) := runOps S clk ops st₁
    (v :: issued, st₂)
  | Op.act name :: ops, st => runOps S clk ops (activateM clk name st)

theorem activateM_cursor (clk : ℕ → Int) (name : String) (st : MState) :
    (activateM clk name st).cursor = st.cursor := by
  simp only [activateM, sessionActivateAt, new_session, timeNow,
    contextActivate]
  split
  · split <;> rfl
  · split <;> rfl

/-- Every issued name is a `names` draw at a position at or past the cursor
the run started from. -/
theorem runOps_issued_pos (S : Shuffles) (clk : ℕ → Int) :
    ∀ (ops : List Op) (st : MState),
      ∀ v ∈ (runOps S clk ops st).1, ∃ m, st.cursor ≤ m ∧ v = nameAt S m := by
  intro ops
  induction ops with
  | nil => intro st v hv; cases hv
  | cons op rest ih =>
    intro st v hv
    cases op with
    | gen =>
      simp only [runOps, generate_name, List.mem_cons] at hv
      rcases hv with rfl | hv
      · exact ⟨genFresh S st.sessions st.cursor, (genFresh_le S st).1, rfl⟩
      · obtain ⟨m, hm, hv⟩ := ih _ v hv
        simp only at hm
        exact ⟨m, le_trans (Nat.le_succ_of_le (genFresh_le S st).1) hm, hv⟩
    | act name =>
      simp only [runOps] at hv
      obtain ⟨m, hm, hv⟩ := ih _ v hv
      rw [activateM_cursor] at hm
      exact ⟨m, hm, hv⟩

/-- Along any trace of `generate_name` and `activate` calls, the names
returned by `generate_name` are pairwise distinct. -/
theorem runOps_issued_nodup (S : Shuffles) (clk : ℕ → Int) :
    ∀ (ops : List Op) (st : MState), (runOps S clk ops st).1.Nodup := by
  intro ops
  induction ops with
  | nil => intro st; simp [runOps]
  | cons op rest ih =>
    intro st
    cases op with
    | gen =>
      simp only [runOps, generate_name]
      refine List.Nodup.cons ?_ (ih _)
      intro hmem
      obtain ⟨m, hm, hv⟩ := runOps_issued_pos S clk rest _ _ hmem
      simp only at hm
      have := nameAt_injective S hv
      have := (genFresh_le S st).1
      omega
    | act name => exact ih _

/-! ## JSON values and the event endpoint (source lines 130-169) -/

/-- A decoded JSON value; `obj` is the case Python's
`isinstance(structured, Mapping)` accepts. -/
inductive JsonVal where
  | obj : List (String × JsonVal) → JsonVal
  | arr : List JsonVal → JsonVal
  | str : String → JsonVal
  | num : Int → JsonVal
  | bool : Bool → JsonVal
  | null : JsonVal

/-- Source line 153: `isinstance(structured, Mapping)`. -/
def isMapping : JsonVal → Bool
  | JsonVal.obj _ => true
  | _ => false

/-- Characters removed by Python `str.strip()` on ASCII input. -/
def pySpace (c : Char) : Bool :=
  c = ' ' ∨ c = '\t' ∨ c = '\n' ∨ c = '\x0d' ∨ c = '\x0b' ∨ c = '\x0c'

/-- Digit run of a Python decimal integer literal after the first digit:
further digits, with single underscores allowed between digits. -/
def pyDigits (acc : ℕ) : List Char → Option ℕ
  | [] => some acc
  | '_' :: c :: cs =>
    if c.isDigit then pyDigits (acc * 10 + (c.toNat - 48)) cs else none
  | c :: cs =>
    if c.isDigit then pyDigits (acc * 10 + (c.toNat - 48)) cs else none

/-- Nonempty digit run starting a Python decimal integer literal. -/
def pyDigitsStart : List Char → Option ℕ
  | c :: cs => if c.isDigit then pyDigits (c.toNat - 48) cs else none
  | [] => none

/-- Python `int(s)` for a decimal string: strip whitespace, optional sign,
then digits (with underscores between digits); `none` when `int` raises
`ValueError`. -/
def pyInt (s : String) : Option Int :=
  let cs := ((s.data.dropWhile pySpace).reverse.dropWhile pySpace).reverse
  match cs with
  | '+' :: rest => (pyDigitsStart rest).map Int.ofNat
  | '-' :: rest => (pyDigitsStart rest).map (fun n => -(n : Int))
  | rest => (pyDigitsStart rest).map Int.ofNat

/-- Outcome of one `handle_POST` call: an error response sent with
`send_error`, a success response sent with `send_response`/`send_header`, or
an exception that escapes the handler so that no response is produced by
it. -/
inductive PostOutcome where
  | error : ℕ → Option String → PostOutcome
  | success : ℕ → List (String × String) → PostOutcome
  | exn : String → PostOutcome
deriving DecidableEq

/-- Source lines 136-167, `GenerateEvent(name).handle_POST`.  Modelled from
the spec for the collaborators (`Handler`/`self.request` from `eca.http` and
`new_event` from the package root, neither part of the given source file):
headers are a name → value mapping with lower-cased keys, the body is the
byte list `self.request.rfile` yields, `decode` is the composite
`json.loads(data.decode('utf-8'))` collaborator (`none` = it raises a
`ValueError`, whose message is the string), and per spec §6 the dispatch
`new_event` raises `NotImplementedError` exactly when no context is current.
`int(...)` on a malformed `content-length` value raises an uncaught
`ValueError` (there is no `try` around source line 143). -/
def handle_POST (decode : List ℕ → Except String JsonVal)
    (current : Option Ctx) (headers : List (String × String))
    (body : List ℕ) : PostOutcome :=
  match alookup "content-length" headers with
  | none => PostOutcome.error 411 none
  | some lenStr =>
    match pyInt lenStr with
    | none =>
      PostOutcome.exn ("ValueError: invalid literal for int() with base 10: "
        ++ lenStr)
    | some len =>
      let data := if 0 ≤ len then body.take len.toNat else body
      match decode data with
      | Except.error e => PostOutcome.error 400 (some ("Bad request: " ++ e))
      | Except.ok v =>
        if isMapping v then
          match current with
          | none => PostOutcome.error 500 (some "No current context available.")
          | some _ =>
            PostOutcome.success 202
              [("content-type", "text/plain; charset=utf-8"),
               ("content-length", "0")]
        else PostOutcome.error 400 (some "Bad request: expect a JSON object")

/-! ## Computed forms of `activateM` -/

theorem activateM_of_fresh (clk : ℕ → Int) (id : String) (st : MState)
    (h : alookup id st.sessions = none) :
    activateM clk id st =
      { sessions :=
          aset id ⟨⟨id, st.nextCid⟩, clk (st.tick + 1)⟩
            (aset id ⟨⟨id, st.nextCid⟩, clk st.tick⟩ st.sessions),
        cursor := st.cursor,
        nextCid := st.nextCid + 1,
        tick := st.tick + 2,
        started := st.started ++ [⟨id, st.nextCid⟩],
        current := some ⟨id, st.nextCid⟩ } := by
  simp only [activateM, h, Option.isSome_none, Bool.false_eq_true, if_false,
    new_session, timeNow, sessionActivateAt, alookup_aset_self,
    contextActivate]

theorem activateM_of_present (clk : ℕ → Int) (id : String) (st : MState)
    (s : Session) (h : alookup id st.sessions = some s) :
    activateM clk id st =
      { sessions := aset id ⟨s.context, clk st.tick⟩ st.sessions,
        cursor := st.cursor,
        nextCid := st.nextCid,
        tick := st.tick + 1,
        started := st.started,
        current := some s.context } := by
  simp only [activateM, h, Option.isSome_some, if_true, sessionActivateAt,
    timeNow, contextActivate]

theorem activateM_entry (clk : ℕ → Int) (id : String) (st : MState) :
    ∃ s : Session,
      alookup id (activateM clk id st).sessions = some s ∧
      (activateM clk id st).current = some s.context := by
  cases h : alookup id st.sessions with
  | none =>
    rw [activateM_of_fresh clk id st h]
    exact ⟨⟨⟨id, st.nextCid⟩, clk (st.tick + 1)⟩, alookup_aset_self _ _ _, rfl⟩
  | some s =>
    rw [activateM_of_present clk id st s h]
    exact ⟨⟨s.context, clk st.tick⟩, alookup_aset_self _ _ _, rfl⟩

/-! ## Claims -/

/-- Claim C1: along any interleaving of `generate_name` and `activate` calls
on one `SessionManager`, the strings returned by `generate_name` are
pairwise distinct — identifiers ever issued by one registry never repeat
during the process lifetime, whether or not earlier results were inserted
into the sessions mapping in between. -/
theorem C1_generate_name_lifetime_unique (S : Shuffles) (clk : ℕ → Int)
    (ops : List Op) (st : MState) :
    (runOps S clk ops st).1.Nodup :=
  runOps_issued_nodup S clk ops st

/-- Claim C4: `generate_name` returns a string that is not a key of the
sessions mapping at call time, and leaves the sessions mapping itself
unchanged. -/
theorem C4_generate_name_fresh_no_insert (S : Shuffles) (st : MState) :
    alookup (generate_name S st).1 st.sessions = none ∧
      (generate_name S st).2.sessions = st.sessions :=
  ⟨genFresh_fresh S st, rfl⟩

/-- Claim C8: `generate_name` terminates for every finite sessions mapping:
the redraw loop stops after consuming at most `|sessions| + 1` draws from
the never-exhausted `names` sequence, at a position carrying a name that is
not a key of the mapping. -/
theorem C8_generate_name_terminates (S : Shuffles) (st : MState) :
    ∃ m, st.cursor ≤ m ∧ m ≤ st.cursor + st.sessions.length ∧
      generate_name S st = (nameAt S m, { st with cursor := m + 1 }) ∧
      alookup (nameAt S m) st.sessions = none := by
  refine ⟨genFresh S st.sessions st.cursor, (genFresh_le S st).1, ?_, rfl,
    genFresh_fresh S st⟩
  have h₁ := (genFresh_le S st).2
  have h₂ := List.toFinset_card_le (st.sessions.map Prod.fst)
  rw [List.length_map] at h₂
  omega

/-- Claim C7: the first `N` values of the `names` sequence are pairwise
distinct for every `N ≤ 144` (they are in fact distinct for every `N`), and
stage 0 consists of exactly `24 × 6 = 144` letter-colour combinations. -/
theorem C7_first_draws_distinct (S : Shuffles) (N : ℕ) (hN : N ≤ 144) :
    ((List.range N).map (nameAt S)).Nodup ∧
      (stageNames S 0).length = 144 := by
  constructor
  · exact (List.nodup_range N).map (nameAt_injective S)
  · rw [stageNames_length]; norm_num

theorem C7_first_draws_distinct_witness :
    2 ≤ 144 ∧ (((List.range 2).map (nameAt idShuffles)).Nodup ∧
      (stageNames idShuffles 0).length = 144) :=
  ⟨by decide, C7_first_draws_distinct idShuffles 2 (by decide)⟩

/-- Claim C2: when `id` is absent, `activate(id)` constructs and starts a
new context keyed by `id` and inserts exactly one Session for it; a second
`activate(id)` creates no further Session or context (the entry keeps the
same context object) and, for a strictly monotonic clock, strictly increases
the entry's `seen` timestamp. -/
theorem C2_activate_twice (clk : ℕ → Int) (id : String) (st : MState)
    (hfresh : alookup id st.sessions = none) (hmono : StrictMono clk) :
    ∃ s₁ s₂ : Session,
      alookup id (activateM clk id st).sessions = some s₁ ∧
      alookup id (activateM clk id (activateM clk id st)).sessions
        = some s₂ ∧
      s₁.context.key = id ∧
      s₁.context ∈ (activateM clk id st).started ∧
      (activateM clk id st).sessions.length = st.sessions.length + 1 ∧
      (activateM clk id (activateM clk id st)).sessions.length
        = (activateM clk id st).sessions.length ∧
      (activateM clk id (activateM clk id st)).nextCid
        = (activateM clk id st).nextCid ∧
      s₂.context = s₁.context ∧
      s₁.seen < s₂.seen := by
  have h₁ := activateM_of_fresh clk id st hfresh
  set s₁ : Session := ⟨⟨id, st.nextCid⟩, clk (st.tick + 1)⟩ with hs₁
  have hl₁ : alookup id (activateM clk id st).sessions = some s₁ := by
    rw [h₁]; exact alookup_aset_self _ _ _
  have h₂ := activateM_of_present clk id (activateM clk id st) s₁ hl₁
  set s₂ : Session := ⟨s₁.context, clk (activateM clk id st).tick⟩ with hs₂
  have hl₂ : alookup id (activateM clk id (activateM clk id st)).sessions
      = some s₂ := by
    rw [h₂]; exact alookup_aset_self _ _ _
  refine ⟨s₁, s₂, hl₁, hl₂, rfl, ?_, ?_, ?_, ?_, rfl, ?_⟩
  · rw [h₁]; simp
  · rw [h₁]
    have hinner : (aset id (⟨⟨id, st.nextCid⟩, clk st.tick⟩ : Session)
        st.sessions).length = st.sessions.length + 1 :=
      length_aset_of_none hfresh _
    have houter := length_aset_of_some
      (k := id) (l := aset id (⟨⟨id, st.nextCid⟩, clk st.tick⟩ : Session)
        st.sessions)
      (by rw [alookup_aset_self]; rfl) s₁
    simp only [houter, hinner]
  · rw [h₂]
    exact length_aset_of_some (by rw [hl₁]; rfl) s₂
  · rw [h₂]
  · show s₁.seen < s₂.seen
    rw [hs₁, hs₂, h₁]
    exact hmono (by show st.tick + 1 < st.tick + 2; omega)

theorem C2_activate_twice_witness :
    alookup "x" initState.sessions = none ∧
    ∃ s₁ s₂ : Session,
      alookup "x" (activateM (fun n => (n : Int)) "x" initState).sessions
        = some s₁ ∧
      alookup "x" (activateM (fun n => (n : Int)) "x"
        (activateM (fun n => (n : Int)) "x" initState)).sessions = some s₂ ∧
      s₁.context.key = "x" ∧
      s₁.context ∈ (activateM (fun n => (n : Int)) "x" initState).started ∧
      (activateM (fun n => (n : Int)) "x" initState).sessions.length
        = initState.sessions.length + 1 ∧
      (activateM (fun n => (n : Int)) "x"
          (activateM (fun n => (n : Int)) "x" initState)).sessions.length
        = (activateM (fun n => (n : Int)) "x" initState).sessions.length ∧
      (activateM (fun n => (n : Int)) "x"
          (activateM (fun n => (n : Int)) "x" initState)).nextCid
        = (activateM (fun n => (n : Int)) "x" initState).nextCid ∧
      s₂.context = s₁.context ∧
      s₁.seen < s₂.seen :=
  ⟨rfl, C2_activate_twice (fun n => (n : Int)) "x" initState rfl
    (fun a b h => by show (a : Int) < (b : Int); exact_mod_cast h)⟩

theorem handleCookie_absent (S : Shuffles) (clk : ℕ → Int)
    (cookieName : String) (reqCookies : List (String × String)) (st : MState)
    (h : alookup cookieName reqCookies = none) :
    handleCookie S clk cookieName reqCookies st =
      ⟨(generate_name S st).1, some ((generate_name S st).1, "/"),
       activateM clk (generate_name S st).1 (generate_name S st).2⟩ := by
  simp only [handleCookie, h, generate_name]

theorem handleCookie_present (S : Shuffles) (clk : ℕ → Int)
    (cookieName : String) (reqCookies : List (String × String)) (st : MState)
    (v : String) (h : alookup cookieName reqCookies = some v) :
    handleCookie S clk cookieName reqCookies st =
      ⟨v, none, activateM clk v st⟩ := by
  simp only [handleCookie, h]

/-- Claim C5: the cookie filter uses a fresh `generate_name` result and
emits a `Set-Cookie` header with path `/` exactly when the configured cookie
is absent; a present cookie's client-supplied value is used as-is with no
`Set-Cookie` header and no validation; in every case the run ends by
activating the chosen value, whose session becomes the current context. -/
theorem C5_cookie_filter (S : Shuffles) (clk : ℕ → Int)
    (cookieName : String) (reqCookies : List (String × String))
    (st : MState) :
    (alookup cookieName reqCookies = none →
      (handleCookie S clk cookieName reqCookies st).value
          = (generate_name S st).1 ∧
      alookup (handleCookie S clk cookieName reqCookies st).value
          st.sessions = none ∧
      (handleCookie S clk cookieName reqCookies st).setCookie
          = some ((handleCookie S clk cookieName reqCookies st).value, "/") ∧
      (handleCookie S clk cookieName reqCookies st).state
          = activateM clk (generate_name S st).1 (generate_name S st).2) ∧
    (∀ v, alookup cookieName reqCookies = some v →
      (handleCookie S clk cookieName reqCookies st).value = v ∧
      (handleCookie S clk cookieName reqCookies st).setCookie = none ∧
      (handleCookie S clk cookieName reqCookies st).state
          = activateM clk v st) ∧
    (∃ s : Session,
      alookup (handleCookie S clk cookieName reqCookies st).value
          (handleCookie S clk cookieName reqCookies st).state.sessions
        = some s ∧
      (handleCookie S clk cookieName reqCookies st).state.current
        = some s.context) := by
  refine ⟨?_, ?_, ?_⟩
  · intro h
    rw [handleCookie_absent S clk cookieName reqCookies st h]
    exact ⟨rfl, genFresh_fresh S st, rfl, rfl⟩
  · intro v h
    rw [handleCookie_present S clk cookieName reqCookies st v h]
    exact ⟨rfl, rfl, rfl⟩
  · cases h : alookup cookieName reqCookies with
    | none =>
      rw [handleCookie_absent S clk cookieName reqCookies st h]
      exact activateM_entry clk _ _
    | some v =>
      rw [handleCookie_present S clk cookieName reqCookies st v h]
      exact activateM_entry clk _ _

theorem C5_cookie_filter_witness :
    (handleCookie idShuffles (fun n => (n : Int)) "sid" [] initState).value
        = (generate_name idShuffles initState).1 ∧
    alookup (handleCookie idShuffles (fun n => (n : Int)) "sid" []
        initState).value initState.sessions = none ∧
    (handleCookie idShuffles (fun n => (n : Int)) "sid" [] initState).setCookie
        = some ((handleCookie idShuffles (fun n => (n : Int)) "sid" []
            initState).value, "/") ∧
    (handleCookie idShuffles (fun n => (n : Int)) "sid" [] initState).state
        = activateM (fun n => (n : Int))
            (generate_name idShuffles initState).1
            (generate_name idShuffles initState).2 :=
  (C5_cookie_filter idShuffles (fun n => (n : Int)) "sid" [] initState).1 rfl

/-- A concrete instance of the JSON-decoding collaborator that always
succeeds with the empty JSON object, for instantiating theorems. -/
def okDecoder : List ℕ → Except String JsonVal :=
  fun _ => Except.ok (JsonVal.obj [])

/-- A concrete instance of the JSON-decoding collaborator that always fails,
for instantiating theorems on inputs where decoding is never reached. -/
def errDecoder : List ℕ → Except String JsonVal :=
  fun _ => Except.error "unused"

/-- Claim C3, counterexample: a POST whose `content-length` header holds the
non-integer value `"abc"` produces none of the enumerated responses — the
handler escapes with an uncaught `ValueError`, so the claimed "exactly one
of 411/400/500/202" enumeration does not cover every POST request. -/
theorem C3_counterexample_bad_length :
    handle_POST errDecoder none [("content-length", "abc")] []
      = PostOutcome.exn
          "ValueError: invalid literal for int() with base 10: abc" := by
  decide

/-- Claim C3, amended: for every POST request whose `content-length` header,
when present, is a valid integer literal, the handler produces exactly one
of the enumerated outcomes: 411 when the header is absent; otherwise it
reads content-length bytes and responds 400 with a message when JSON
decoding fails, 400 when the decoded value is not a mapping, 500 when the
dispatch finds no current context, and 202 with a `content-length: 0` header
otherwise. -/
theorem C3_handle_POST_outcomes (decode : List ℕ → Except String JsonVal)
    (current : Option Ctx) (headers : List (String × String))
    (body : List ℕ)
    (hwf : ∀ v, alookup "content-length" headers = some v →
      (pyInt v).isSome) :
    (alookup "content-length" headers = none ∧
      handle_POST decode current headers body = PostOutcome.error 411 none) ∨
    (∃ v len, alookup "content-length" headers = some v ∧
      pyInt v = some len ∧
      ((∃ e, decode (if 0 ≤ len then body.take len.toNat else body)
            = Except.error e ∧
          handle_POST decode current headers body
            = PostOutcome.error 400 (some ("Bad request: " ++ e))) ∨
       (∃ j, decode (if 0 ≤ len then body.take len.toNat else body)
            = Except.ok j ∧ isMapping j = false ∧
          handle_POST decode current headers body
            = PostOutcome.error 400
                (some "Bad request: expect a JSON object")) ∨
       (∃ j, decode (if 0 ≤ len then body.take len.toNat else body)
            = Except.ok j ∧ isMapping j = true ∧ current = none ∧
          handle_POST decode current headers body
            = PostOutcome.error 500
                (some "No current context available.")) ∨
       (∃ j c, decode (if 0 ≤ len then body.take len.toNat else body)
            = Except.ok j ∧ isMapping j = true ∧ current = some c ∧
          handle_POST decode current headers body
            = PostOutcome.success 202
                [("content-type", "text/plain; charset=utf-8"),
                 ("content-length", "0")]))) := by
  cases hh : alookup "content-length" headers with
  | none => exact Or.inl ⟨rfl, by simp [handle_POST, hh]⟩
  | some v =>
    refine Or.inr ⟨v, ?_⟩
    cases hp : pyInt v with
    | none => exact absurd (hp ▸ hwf v hh) (by simp)
    | some len =>
      refine ⟨len, rfl, rfl, ?_⟩
      cases hd : decode (if 0 ≤ len then body.take len.toNat else body) with
      | error e =>
        exact Or.inl ⟨e, rfl, by simp [handle_POST, hh, hp, hd]⟩
      | ok j =>
        cases hm : isMapping j with
        | false =>
          exact Or.inr (Or.inl ⟨j, rfl, hm,
            by simp [handle_POST, hh, hp, hd, hm]⟩)
        | true =>
          cases hc : current with
          | none =>
            exact Or.inr (Or.inr (Or.inl ⟨j, rfl, hm, rfl,
              by simp [handle_POST, hh, hp, hd, hm, hc]⟩))
          | some c =>
            exact Or.inr (Or.inr (Or.inr ⟨j, c, rfl, hm, rfl,
              by simp [handle_POST, hh, hp, hd, hm, hc]⟩))

theorem C3_handle_POST_outcomes_witness :
    (alookup "content-length" [("content-length", "3")] = none ∧
      handle_POST okDecoder (some ⟨"x", 0⟩) [("content-length", "3")]
          [49, 50, 51]
        = PostOutcome.error 411 none) ∨
    (∃ v len,
      alookup "content-length" [("content-length", "3")] = some v ∧
      pyInt v = some len ∧
      ((∃ e, okDecoder
            (if 0 ≤ len then [49, 50, 51].take len.toNat else [49, 50, 51])
            = Except.error e ∧
          handle_POST okDecoder (some ⟨"x", 0⟩) [("content-length", "3")]
              [49, 50, 51]
            = PostOutcome.error 400 (some ("Bad request: " ++ e))) ∨
       (∃ j, okDecoder
            (if 0 ≤ len then [49, 50, 51].take len.toNat else [49, 50, 51])
            = Except.ok j ∧ isMapping j = false ∧
          handle_POST okDecoder (some ⟨"x", 0⟩) [("content-length", "3")]
              [49, 50, 51]
            = PostOutcome.error 400
                (some "Bad request: expect a JSON object")) ∨
       (∃ j, okDecoder
            (if 0 ≤ len then [49, 50, 51].take len.toNat else [49, 50, 51])
            = Except.ok j ∧ isMapping j = true ∧
          (some (⟨"x", 0⟩ : Ctx)) = none ∧
          handle_POST okDecoder (some ⟨"x", 0⟩) [("content-length", "3")]
              [49, 50, 51]
            = PostOutcome.error 500
                (some "No current context available.")) ∨
       (∃ j c, okDecoder
            (if 0 ≤ len then [49, 50, 51].take len.toNat else [49, 50, 51])
            = Except.ok j ∧ isMapping j = true ∧
          (some (⟨"x", 0⟩ : Ctx)) = some c ∧
          handle_POST okDecoder (some ⟨"x", 0⟩) [("content-length", "3")]
              [49, 50, 51]
            = PostOutcome.success 202
                [("content-type", "text/plain; charset=utf-8"),
                 ("content-length", "0")]))) :=
  C3_handle_POST_outcomes okDecoder
    (some ⟨"x", 0⟩) [("content-length", "3")] [49, 50, 51]
    (fun v h => by
      have h2 : (some "3" : Option String) = some v := h
      cases Option.some_inj.mp h2
      decide)

/-- Claim C10: a present `content-length` header whose value is not a valid
integer literal makes `handle_POST` escape with the uncaught `ValueError`
from `int()` instead of sending any HTTP error response — the 411/400
handling covers only an absent header and bad JSON. -/
theorem C10_malformed_length_uncaught (decode : List ℕ → Except String JsonVal)
    (current : Option Ctx) (headers : List (String × String))
    (body : List ℕ) (v : String)
    (hv : alookup "content-length" headers = some v)
    (hbad : pyInt v = none) :
    handle_POST decode current headers body
      = PostOutcome.exn
          ("ValueError: invalid literal for int() with base 10: " ++ v) := by
  simp [handle_POST, hv, hbad]

theorem C10_malformed_length_uncaught_witness :
    alookup "content-length" [("content-length", "12x")] = some "12x" ∧
    pyInt "12x" = none ∧
    handle_POST errDecoder none [("content-length", "12x")] [49]
      = PostOutcome.exn
          "ValueError: invalid literal for int() with base 10: 12x" :=
  ⟨rfl, by decide,
    C10_malformed_length_uncaught errDecoder none
      [("content-length", "12x")] [49] "12x" rfl (by decide)⟩

/-- Claim C6, counterexample: under the identity shuffle outcome, the first
name of stage 1 is `alpha-red-alpha`: its final `'-'`-separated component is
the letter word `alpha`, not the colour word — the appended letters factor
goes to the END of the factor list `[letters, colours]`, so from stage 1 on
the colour is the second component, not the last. -/
theorem C6_counterexample_colour_not_last :
    (stageNames idShuffles 1).head? = some "alpha-red-alpha" ∧
    (components "alpha-red-alpha").getLast? = some "alpha" ∧
    "alpha" ∉ colours := by
  refine ⟨?_, by decide, by decide⟩
  decide

/-- Claim C6, amended: after stage 0 is exhausted, each later stage extends
the factor list with one more shuffled copy of the 24-word letters
vocabulary, appended AFTER the colour factor, and enumerates the Cartesian
product of the new factor list; hence every name produced at stage `k ≥ 1`
consists of a letter word, then the colour word as its SECOND
`'-'`-separated component, then `k` more letter words. -/
theorem C6_stage_shape (S : Shuffles) (k : ℕ) (hk : 1 ≤ k) :
    stageParts S k =
      (S.Ls k :: S.Cs k :: List.replicate (k - 1) (S.Ls k)) ++ [S.Ls k] ∧
    (S.Ls k).Perm letters ∧
    ∀ nm ∈ stageNames S k, ∃ l₀ c rest,
      nm = joinDash (l₀ :: c :: rest) ∧ l₀ ∈ letters ∧ c ∈ colours ∧
      rest.length = k ∧ ∀ w ∈ rest, w ∈ letters := by
  refine ⟨?_, S.permL k, ?_⟩
  · have hk1 : k - 1 + 1 = k := by omega
    simp only [stageParts, List.cons_append, List.nil_append]
    rw [← List.replicate_succ', hk1]
  · intro nm hnm
    obtain ⟨ws, hws, hjoin⟩ := mem_stageNames.mp hnm
    have hf := mem_listProduct.mp hws
    rw [stageParts] at hf
    cases hf with
    | cons hl₀ hf₁ =>
      cases hf₁ with
      | cons hc hf₂ =>
        refine ⟨_, _, _, hjoin.symm, (S.permL k).subset hl₀,
          (S.permC k).subset hc, ?_, ?_⟩
        · rw [hf₂.length_eq, List.length_replicate]
        · intro w hw
          obtain ⟨l, hl, hwl⟩ := forall₂_mem_left hf₂ hw
          rw [List.eq_of_mem_replicate hl] at hwl
          exact (S.permL k).subset hwl

theorem C6_stage_shape_witness :
    1 ≤ 1 ∧
    (stageParts idShuffles 1 =
      (idShuffles.Ls 1 :: idShuffles.Cs 1 ::
        List.replicate 0 (idShuffles.Ls 1)) ++ [idShuffles.Ls 1] ∧
    (idShuffles.Ls 1).Perm letters ∧
    ∀ nm ∈ stageNames idShuffles 1, ∃ l₀ c rest,
      nm = joinDash (l₀ :: c :: rest) ∧ l₀ ∈ letters ∧ c ∈ colours ∧
      rest.length = 1 ∧ ∀ w ∈ rest, w ∈ letters) :=
  ⟨by decide, C6_stage_shape idShuffles 1 (by decide)⟩

/-! ## Interleaved execution of `activate` (no lock in the source)

`SessionManager.activate` (source lines 124-127) takes no lock.  To examine
it under the concurrent invocation of spec §5, each `activate(name)` call is
split at its three dict operations — the membership test
`name not in self.sessions`, the insert
`self.sessions[name] = self._new_session(name)`, and the entry activation
`self.sessions[name].activate()` — each individually atomic, and two such
calls are interleaved by an arbitrary schedule. -/

/-- One thread running `activate(name)`: `pc` counts the atomic steps done
(0 = before the membership test, 1 = before the conditional insert,
2 = before the entry activation, 3 = done); `flag` stores the result of the
membership test. -/
structure TStat where
  name : String
  pc : ℕ
  flag : Bool
deriving DecidableEq

/-- One atomic step of a thread running `activate`. -/
def threadStep (clk : ℕ → Int) (t : TStat) (st : MState) : TStat × MState :=
  match t.pc with
  | 0 => ({ t with pc := 1, flag := (alookup t.name st.sessions).isNone }, st)
  | 1 =>
    if t.flag then
      let (s, st') := new_session clk t.name st
      ({ t with pc := 2 }, { st' with sessions := aset t.name s st'.sessions })
    else ({ t with pc := 2 }, st)
  | 2 => ({ t with pc := 3 }, sessionActivateAt clk t.name st)
  | _ => (t, st)

/-- Run two interleaved `activate` calls under a schedule (`false` steps the
first thread, `true` the second). -/
def runSched (clk : ℕ → Int) :
    List Bool → TStat × TStat × MState → TStat × TStat × MState
  | [], s => s
  | b :: rest, (ta, tb, st) =>
    if b then
      runSched clk rest (ta, (threadStep clk tb st).1, (threadStep clk tb st).2)
    else
      runSched clk rest ((threadStep clk ta st).1, tb, (threadStep clk ta st).2)

/-- Number of `_new_session` calls a thread has performed. -/
def createdCount (t : TStat) : ℕ := if 2 ≤ t.pc then 1 else 0

/-- Per-thread invariant over the thread's own key's lookup result. -/
def threadClause (t : TStat) (look : Option Session) : Prop :=
  (t.pc = 0 → look = none) ∧
  (t.pc = 1 → t.flag = true ∧ look = none) ∧
  (2 ≤ t.pc → look.isSome)

/-- Invariant of two interleaved `activate` calls on distinct never-seen
identifiers `a` and `b`: each thread's key appears exactly once its own
insert has happened, and the map size and the context-creation count grow by
exactly the number of inserts performed. -/
def RaceInv (a b : String) (n₀ cid₀ : ℕ) (ta tb : TStat) (st : MState) :
    Prop :=
  ta.name = a ∧ tb.name = b ∧
  threadClause ta (alookup a st.sessions) ∧
  threadClause tb (alookup b st.sessions) ∧
  st.sessions.length = n₀ + createdCount ta + createdCount tb ∧
  st.nextCid = cid₀ + createdCount ta + createdCount tb

theorem sessionActivateAt_of_some (clk : ℕ → Int) (name : String)
    (st : MState) (s : Session) (h : alookup name st.sessions = some s) :
    sessionActivateAt clk name st =
      { st with
        sessions := aset name ⟨s.context, clk st.tick⟩ st.sessions,
        tick := st.tick + 1,
        current := some s.context } := by
  simp only [sessionActivateAt, h, timeNow, contextActivate]

theorem threadStep_self_inv (clk : ℕ → Int) (x : String) (t : TStat)
    (st : MState) (hx : t.name = x)
    (hcl : threadClause t (alookup x st.sessions)) :
    threadClause (threadStep clk t st).1
        (alookup x (threadStep clk t st).2.sessions) ∧
      (threadStep clk t st).1.name = x ∧
      createdCount t ≤ createdCount (threadStep clk t st).1 ∧
      (threadStep clk t st).2.sessions.length + createdCount t
        = st.sessions.length + createdCount (threadStep clk t st).1 ∧
      (threadStep clk t st).2.nextCid + createdCount t
        = st.nextCid + createdCount (threadStep clk t st).1 := by
  obtain ⟨h0, h1, h2⟩ := hcl
  obtain ⟨nx, pc, flag⟩ := t
  simp only at hx
  subst hx
  rcases pc with _ | _ | _ | pc
  · have hnone := h0 rfl
    refine ⟨⟨fun h => absurd (show (1 : ℕ) = 0 from h) (by decide),
      fun _ => ⟨?_, hnone⟩,
      fun h => absurd (show (2 : ℕ) ≤ 1 from h) (by decide)⟩,
      rfl, by show (0 : ℕ) ≤ 0; decide, rfl, rfl⟩
    show (alookup nx st.sessions).isNone = true
    rw [hnone]
    rfl
  · obtain ⟨hflag, hnone⟩ := h1 rfl
    simp only at hflag
    subst hflag
    refine ⟨⟨fun h => absurd (show (2 : ℕ) = 0 from h) (by decide),
      fun h => absurd (show (2 : ℕ) = 1 from h) (by decide),
      fun _ => ?_⟩, rfl, by show (0 : ℕ) ≤ 1; decide, ?_, ?_⟩
    · show (alookup nx (aset nx
        (⟨⟨nx, st.nextCid⟩, clk st.tick⟩ : Session) st.sessions)).isSome = true
      rw [alookup_aset_self]
      rfl
    · show (aset nx (⟨⟨nx, st.nextCid⟩, clk st.tick⟩ : Session)
        st.sessions).length + 0 = st.sessions.length + 1
      have := length_aset_of_none hnone
        (⟨⟨nx, st.nextCid⟩, clk st.tick⟩ : Session)
      omega
    · rfl
  · have hsome := h2 (Nat.le_refl 2)
    obtain ⟨s, hs⟩ := Option.isSome_iff_exists.mp hsome
    have hstep : threadStep clk ⟨nx, 2, flag⟩ st
        = (⟨nx, 3, flag⟩, sessionActivateAt clk nx st) := rfl
    have hact := sessionActivateAt_of_some clk nx st s hs
    rw [hstep, hact]
    refine ⟨⟨fun h => absurd (show (3 : ℕ) = 0 from h) (by decide),
      fun h => absurd (show (3 : ℕ) = 1 from h) (by decide),
      fun _ => ?_⟩, rfl, by show (1 : ℕ) ≤ 1; decide, ?_, ?_⟩
    · show (alookup nx (aset nx
        (⟨s.context, clk st.tick⟩ : Session) st.sessions)).isSome = true
      rw [alookup_aset_self]
      rfl
    · show (aset nx (⟨s.context, clk st.tick⟩ : Session)
        st.sessions).length + 1 = st.sessions.length + 1
      have := length_aset_of_some (show (alookup nx st.sessions).isSome from
        by rw [hs]; rfl) (⟨s.context, clk st.tick⟩ : Session)
      omega
    · rfl
  · exact ⟨⟨h0, h1, h2⟩, rfl, Nat.le_refl _, rfl, rfl⟩

theorem threadStep_other_lookup (clk : ℕ → Int) (y : String) (t : TStat)
    (st : MState) (hy : t.name ≠ y) :
    alookup y (threadStep clk t st).2.sessions = alookup y st.sessions := by
  obtain ⟨nx, pc, flag⟩ := t
  simp only at hy
  rcases pc with _ | _ | _ | pc
  · rfl
  · cases flag with
    | false => rfl
    | true =>
      show alookup y (aset nx
        (⟨⟨nx, st.nextCid⟩, clk st.tick⟩ : Session) st.sessions)
        = alookup y st.sessions
      exact alookup_aset_ne (fun h => hy h.symm) _ _
  · show alookup y (sessionActivateAt clk nx st).sessions
      = alookup y st.sessions
    cases hl : alookup nx st.sessions with
    | none =>
      simp only [sessionActivateAt, hl]
    | some s =>
      rw [sessionActivateAt_of_some clk nx st s hl]
      exact alookup_aset_ne (fun h => hy h.symm) _ _
  · rfl

theorem stepA_inv (clk : ℕ → Int) (a b : String) (n₀ cid₀ : ℕ)
    (hab : a ≠ b) (ta tb : TStat) (st : MState)
    (hInv : RaceInv a b n₀ cid₀ ta tb st) :
    RaceInv a b n₀ cid₀ (threadStep clk ta st).1 tb
      (threadStep clk ta st).2 := by
  obtain ⟨hna, hnb, hca, hcb, hlen, hcid⟩ := hInv
  obtain ⟨hca', hname', hmono, hlen', hcid'⟩ :=
    threadStep_self_inv clk a ta st hna hca
  refine ⟨hname', hnb, hca', ?_, ?_, ?_⟩
  · rw [threadStep_other_lookup clk b ta st (by rw [hna]; exact hab)]
    exact hcb
  · omega
  · omega

theorem stepB_inv (clk : ℕ → Int) (a b : String) (n₀ cid₀ : ℕ)
    (hab : a ≠ b) (ta tb : TStat) (st : MState)
    (hInv : RaceInv a b n₀ cid₀ ta tb st) :
    RaceInv a b n₀ cid₀ ta (threadStep clk tb st).1
      (threadStep clk tb st).2 := by
  obtain ⟨hna, hnb, hca, hcb, hlen, hcid⟩ := hInv
  obtain ⟨hcb', hname', hmono, hlen', hcid'⟩ :=
    threadStep_self_inv clk b tb st hnb hcb
  refine ⟨hna, hname', ?_, hcb', ?_, ?_⟩
  · rw [threadStep_other_lookup clk a tb st
      (by rw [hnb]; exact fun h => hab h.symm)]
    exact hca
  · omega
  · omega

theorem runSched_inv (clk : ℕ → Int) (a b : String) (n₀ cid₀ : ℕ)
    (hab : a ≠ b) :
    ∀ (sched : List Bool) (ta tb : TStat) (st : MState),
      RaceInv a b n₀ cid₀ ta tb st →
      RaceInv a b n₀ cid₀
        (runSched clk sched (ta, tb, st)).1
        (runSched clk sched (ta, tb, st)).2.1
        (runSched clk sched (ta, tb, st)).2.2 := by
  intro sched
  induction sched with
  | nil => intro ta tb st h; exact h
  | cons step rest ih =>
    intro ta tb st hInv
    cases step with
    | false =>
      exact ih (threadStep clk ta st).1 tb (threadStep clk ta st).2
        (stepA_inv clk a b n₀ cid₀ hab ta tb st hInv)
    | true =>
      exact ih ta (threadStep clk tb st).1 (threadStep clk tb st).2
        (stepB_inv clk a b n₀ cid₀ hab ta tb st hInv)

theorem C9_counterexample_same_id_race :
    (runSched (fun n => (n : Int)) [false, true, false, true, false, true]
      (⟨"x", 0, false⟩, ⟨"x", 0, false⟩, initState)).2.2.nextCid = 2 ∧
    (runSched (fun n => (n : Int)) [false, true, false, true, false, true]
      (⟨"x", 0, false⟩, ⟨"x", 0, false⟩, initState)).2.2.sessions.length = 1 ∧
    (runSched (fun n => (n : Int)) [false, true, false, true, false, true]
      (⟨"x", 0, false⟩, ⟨"x", 0, false⟩, initState)).1.pc = 3 ∧
    (runSched (fun n => (n : Int)) [false, true, false, true, false, true]
      (⟨"x", 0, false⟩, ⟨"x", 0, false⟩, initState)).2.1.pc = 3 := by
  decide

/-- Claim C9, amended: the source performs the read-check-insert sequence of
`activate` with no mutual exclusion; concurrent `activate` calls on the SAME
never-seen identifier can therefore each construct a Session (see the
counterexample).  For pairwise distinct never-seen identifiers, however,
every interleaving of two `activate` calls that runs both to completion
yields one Session entry per identifier with no lost update: both keys are
present afterwards, the mapping grew by exactly two entries, and exactly two
contexts were created. -/
theorem C9_distinct_ids_no_lost_update (clk : ℕ → Int) (a b : String)
    (st : MState) (sched : List Bool) (hab : a ≠ b)
    (ha : alookup a st.sessions = none) (hb : alookup b st.sessions = none)
    (hdoneA : (runSched clk sched (⟨a, 0, false⟩, ⟨b, 0, false⟩, st)).1.pc = 3)
    (hdoneB :
      (runSched clk sched (⟨a, 0, false⟩, ⟨b, 0, false⟩, st)).2.1.pc = 3) :
    (alookup a (runSched clk sched
        (⟨a, 0, false⟩, ⟨b, 0, false⟩, st)).2.2.sessions).isSome ∧
    (alookup b (runSched clk sched
        (⟨a, 0, false⟩, ⟨b, 0, false⟩, st)).2.2.sessions).isSome ∧
    (runSched clk sched (⟨a, 0, false⟩, ⟨b, 0, false⟩, st)).2.2.sessions.length
      = st.sessions.length + 2 ∧
    (runSched clk sched (⟨a, 0, false⟩, ⟨b, 0, false⟩, st)).2.2.nextCid
      = st.nextCid + 2 := by
  have hInit : RaceInv a b st.sessions.length st.nextCid
      ⟨a, 0, false⟩ ⟨b, 0, false⟩ st := by
    refine ⟨rfl, rfl,
      ⟨fun _ => ha, fun h => absurd (show (0 : ℕ) = 1 from h) (by decide),
        fun h => absurd (show (2 : ℕ) ≤ 0 from h) (by decide)⟩,
      ⟨fun _ => hb, fun h => absurd (show (0 : ℕ) = 1 from h) (by decide),
        fun h => absurd (show (2 : ℕ) ≤ 0 from h) (by decide)⟩, ?_, ?_⟩
    · show st.sessions.length = st.sessions.length + 0 + 0
      omega
    · show st.nextCid = st.nextCid + 0 + 0
      omega
  have hFinal := runSched_inv clk a b st.sessions.length st.nextCid hab
    sched ⟨a, 0, false⟩ ⟨b, 0, false⟩ st hInit
  obtain ⟨_, _, hca, hcb, hlen, hcid⟩ := hFinal
  have hcA : createdCount
      (runSched clk sched (⟨a, 0, false⟩, ⟨b, 0, false⟩, st)).1 = 1 := by
    simp [createdCount, hdoneA]
  have hcB : createdCount
      (runSched clk sched (⟨a, 0, false⟩, ⟨b, 0, false⟩, st)).2.1 = 1 := by
    simp [createdCount, hdoneB]
  refine ⟨hca.2.2 (by omega), hcb.2.2 (by omega), ?_, ?_⟩
  · omega
  · omega

theorem C9_distinct_ids_no_lost_update_witness :
    ("x" : String) ≠ "y" ∧
    ((alookup "x" (runSched (fun n => (n : Int))
        [false, false, false, true, true, true]
        (⟨"x", 0, false⟩, ⟨"y", 0, false⟩, initState)).2.2.sessions).isSome ∧
    (alookup "y" (runSched (fun n => (n : Int))
        [false, false, false, true, true, true]
        (⟨"x", 0, false⟩, ⟨"y", 0, false⟩, initState)).2.2.sessions).isSome ∧
    (runSched (fun n => (n : Int)) [false, false, false, true, true, true]
        (⟨"x", 0, false⟩, ⟨"y", 0, false⟩,
          initState)).2.2.sessions.length
      = initState.sessions.length + 2 ∧
    (runSched (fun n => (n : Int)) [false, false, false, true, true, true]
        (⟨"x", 0, false⟩, ⟨"y", 0, false⟩, initState)).2.2.nextCid
      = initState.nextCid + 2) :=
  ⟨by decide,
    C9_distinct_ids_no_lost_update (fun n => (n : Int)) "x" "y" initState
      [false, false, false, true, true, true] (by decide) rfl rfl
      (by decide) (by decide)⟩

end Eca
